import Mathlib

/-!
Verification of the hybrid search-and-ranking subsystem of CDPSmartBot
(`src/backend/app/services/search_service.py`), shallowly embedded in Lean.

The embedding follows the Python source line by line:
* `SearchResult` and `DocumentChunk` mirror `app/schemas/search.py`;
* the FAISS `IndexFlatL2` collaborator is modelled as a list of rational
  vectors with a k-nearest-neighbour query (`knnSearch`) returning
  `(position, squared L2 distance)` pairs padded with `-1` entries,
  matching FAISS behaviour when fewer than `k` vectors exist;
* the Elasticsearch collaborator is modelled as an association list of
  `(index name, id, document)` triples; `esGet` is `es.get` (a miss is the
  client's NotFound exception, i.e. `none` which the caller turns into
  `Except.error`), `esPut` is `es.index` (insert or overwrite);
  full-text relevance scoring is external to the repository, so
  `esSearchQ` keeps the scoring function as a parameter and implements the
  documented contract (score the partition, order by descending score,
  return at most `size` hits);
* `combine_search_results` is `SearchService._combine_search_results`:
  two accumulation passes over an insertion-ordered map keyed by result
  content, then a stable descending sort on the accumulated score
  (Python's `sorted(..., reverse=True)` is stable, which
  `List.insertionSort` with the reflexive descending relation reproduces);
* `search`, `semanticSearch`, `keywordSearch` and `index_document` mirror
  the corresponding methods, with Python exception propagation embedded as
  the `Except` monad.
-/

namespace CDPSmartBot

/-- `SearchResult` from `app/schemas/search.py`: one retrieved match.
Scores are embedded as rationals. -/
structure SearchResult where
  content : String
  platform : String
  score : ℚ
  doc_type : String
  sectionName : Option String
deriving DecidableEq, Repr

/-- `DocumentChunk` from `app/schemas/search.py`: a unit of indexed content. -/
structure DocumentChunk where
  content : String
  platform : String
  doc_type : String := "general"
  sectionName : Option String := none
  title : Option String := none
  url : Option String := none
deriving DecidableEq, Repr

/-- The document body written by `SearchService.index_document` into
Elasticsearch (the `document=` dict of `es.index`). -/
structure EsDoc where
  content : String
  platform : String
  doc_type : String
  sectionName : Option String
  title : Option String
  url : Option String
deriving DecidableEq, Repr

/-- The Elasticsearch collaborator's state: an association list of
`(index name, document id, document)` triples, most recently written
entries substituted in place. -/
def EsStore := List (String × String × EsDoc)

instance : DecidableEq EsStore := inferInstanceAs (DecidableEq (List (String × String × EsDoc)))

/-- `es.get(index=idx, id=i)`: exact lookup; `none` models the client's
NotFound exception (the Python code does not catch it). -/
def esGet (es : EsStore) (idx : String) (i : String) : Option EsDoc :=
  match es.find? (fun e => decide (e.1 = idx) && decide (e.2.1 = i)) with
  | some e => some e.2.2
  | none => none

/-- `es.index(index=idx, id=i, document=d)`: insert or overwrite the entry
with the given index name and id. -/
def esPut (es : EsStore) (idx : String) (i : String) (d : EsDoc) : EsStore :=
  match es with
  | [] => [(idx, i, d)]
  | e :: rest =>
    if e.1 = idx ∧ e.2.1 = i then (idx, i, d) :: rest else e :: esPut rest idx i d

/-- Squared Euclidean distance, as returned by FAISS `IndexFlatL2.search`. -/
def sqDist (u v : List ℚ) : ℚ :=
  (List.zipWith (fun a b => (a - b) ^ 2) u v).sum

/-- Ordering relation used to model Python's stable
`sorted(..., key=lambda x: x[1], reverse=True)` on score-carrying pairs:
`a` may precede `b` iff `a`'s score is at least `b`'s. -/
def byScoreDesc {α : Type} : (α × ℚ) → (α × ℚ) → Prop := fun a b => b.2 ≤ a.2

instance {α : Type} : DecidableRel (byScoreDesc (α := α)) :=
  fun a b => inferInstanceAs (Decidable (b.2 ≤ a.2))

instance {α : Type} : IsTotal (α × ℚ) byScoreDesc := ⟨fun a b => le_total b.2 a.2⟩

instance {α : Type} : IsTrans (α × ℚ) byScoreDesc := ⟨fun _ _ _ h₁ h₂ => le_trans h₂ h₁⟩

/-- FAISS `IndexFlatL2.search(query, k)` over the stored vectors: every
stored vector is scored by squared L2 distance to the query, results are
ordered by ascending distance (ties by insertion position), at most `k`
are returned, and missing slots are filled with position `-1` (FAISS
returns `-1` labels when the index holds fewer than `k` vectors). -/
def knnSearch (vecs : List (List ℚ)) (q : List ℚ) (k : Nat) : List (Int × ℚ) :=
  let pairs := vecs.enum.map (fun p => ((p.1 : Int), sqDist q p.2))
  let sorted := List.insertionSort (fun a b => a.2 ≤ b.2) pairs
  let taken := sorted.take k
  taken ++ List.replicate (k - taken.length) (-1, 0)

/-- Distance-to-similarity conversion used by `_semantic_search`
(line 70 of `search_service.py`): `score = 1 / (1 + distance)`. -/
def similarity (d : ℚ) : ℚ := 1 / (1 + d)

/-- Process one semantic result into the `combined_scores` dict
(`combined_scores[result.content] = {'result': result, 'score': sc}`):
Python dict assignment overwrites the value of the first (unique) entry
with this content but keeps its insertion position, and appends a fresh
entry otherwise. -/
def setEntry (acc : List (SearchResult × ℚ)) (r : SearchResult) (sc : ℚ) :
    List (SearchResult × ℚ) :=
  match acc with
  | [] => [(r, sc)]
  | (e, s) :: rest =>
    if e.content = r.content then (r, sc) :: rest else (e, s) :: setEntry rest r sc

/-- Process one keyword result into the `combined_scores` dict: if the
content is present, add `r.score * kw` to its accumulated score (keeping
the stored result object); otherwise append a fresh entry with score
`r.score * kw`. -/
def addKeyword (acc : List (SearchResult × ℚ)) (r : SearchResult) (kw : ℚ) :
    List (SearchResult × ℚ) :=
  match acc with
  | [] => [(r, r.score * kw)]
  | (e, s) :: rest =>
    if e.content = r.content then (e, s + r.score * kw) :: rest
    else (e, s) :: addKeyword rest r kw

/-- The `combined_scores` dict after the semantic pass of
`_combine_search_results` (insertion-ordered, keyed by content). -/
def semEntries (sem : List SearchResult) (w : ℚ) : List (SearchResult × ℚ) :=
  sem.foldl (fun acc r => setEntry acc r (r.score * w)) []

/-- The `combined_scores` dict after both passes of
`_combine_search_results` (keyword weight is `1 - w`). -/
def rawEntries (sem kw : List SearchResult) (w : ℚ) : List (SearchResult × ℚ) :=
  kw.foldl (fun acc r => addKeyword acc r (1 - w)) (semEntries sem w)

/-- The `sorted(combined_scores.values(), key=lambda x: x['score'],
reverse=True)` step: a stable descending sort on accumulated score. -/
def sortedEntries (sem kw : List SearchResult) (w : ℚ) : List (SearchResult × ℚ) :=
  List.insertionSort byScoreDesc (rawEntries sem kw w)

/-- `SearchService._combine_search_results(semantic_results,
keyword_results, semantic_weight)`: accumulate weighted scores keyed by
content, sort descending by accumulated score, and return the stored
result objects. -/
def combine_search_results (sem kw : List SearchResult) (w : ℚ) : List SearchResult :=
  (sortedEntries sem kw w).map (fun e => e.1)

/-- Accumulated score held in the `combined_scores` dict for content `c`
(`0` when the content is absent). -/
def scoreOf (l : List (SearchResult × ℚ)) (c : String) : ℚ :=
  match l.find? (fun e => decide (e.1.content = c)) with
  | some e => e.2
  | none => 0

/-- Sum of the raw keyword-path scores of all keyword results whose
content is `c`. -/
def kwSum (kw : List SearchResult) (c : String) : ℚ :=
  ((kw.filter (fun r => decide (r.content = c))).map SearchResult.score).sum

/-- The process-wide state owned by the `SearchService` singleton: the
FAISS vectors (insertion order) and the Elasticsearch store. -/
structure ServiceState where
  vecs : List (List ℚ)
  es : EsStore
deriving DecidableEq

/-- The state of a freshly constructed service: empty FAISS index, empty
document store. -/
def emptyState : ServiceState := ⟨[], []⟩

/-- The fetch loop of `_semantic_search` (lines 60-75): for each
`(idx, distance)` pair with `idx != -1`, fetch the document by id
`str(idx)` from the platform's index; a missing document makes `es.get`
raise (NotFound propagates, embedded as `Except.error ()`); a found
document contributes a `SearchResult` scored by `similarity distance`. -/
def semLoop (es : EsStore) (platform : String) :
    List (Int × ℚ) → Except Unit (List SearchResult)
  | [] => Except.ok []
  | (idx, dist) :: rest =>
    if idx ≠ -1 then
      match esGet es (platform.toLower ++ "_docs") (toString idx) with
      | none => Except.error ()
      | some doc =>
        (semLoop es platform rest).map
          (fun rs => ⟨doc.content, platform, similarity dist, doc.doc_type, doc.sectionName⟩ :: rs)
    else semLoop es platform rest

/-- `SearchService._semantic_search(query_embedding, platform, top_k)`. -/
def semanticSearch (st : ServiceState) (emb : List ℚ) (platform : String) (topk : Nat) :
    Except Unit (List SearchResult) :=
  semLoop st.es platform (knnSearch st.vecs emb topk)

/-- Model of the Elasticsearch full-text query executed by
`_keyword_search`: relevance scoring (BM25 with the configured
title/section boosts) is internal to the external Elasticsearch
collaborator, so it is kept as the parameter `esScore` (`none` meaning
the document does not match); per the store's contract the query scores
the platform partition, orders hits by descending relevance (stable) and
returns at most `size` of them. -/
def esSearchQ (esScore : String → EsDoc → Option ℚ) (es : EsStore) (idxName : String)
    (query : String) (size : Nat) : List (EsDoc × ℚ) :=
  let hits := (es.filter (fun e => decide (e.1 = idxName))).filterMap
    (fun e => (esScore query e.2.2).map (fun s => (e.2.2, s)))
  (List.insertionSort byScoreDesc hits).take size

/-- `SearchService._keyword_search(query, platform, top_k)`: run the
full-text query on the platform's index and emit `SearchResult`s carrying
the store's native relevance score, unmodified. -/
def keywordSearch (esScore : String → EsDoc → Option ℚ) (st : ServiceState)
    (query platform : String) (topk : Nat) : List SearchResult :=
  (esSearchQ esScore st.es (platform.toLower ++ "_docs") query topk).map
    (fun h => ⟨h.1.content, platform, h.2, h.1.doc_type, h.1.sectionName⟩)

/-- The statement sequence of `SearchService.search` (lines 29-41) with
each collaborator call's outcome as an input: compute the embedding, run
the semantic search, run the keyword search, combine with
`semantic_weight = 0.5`; any raised exception propagates (the `Except`
bind). -/
def searchRun (emb : Except Unit (List ℚ))
    (semf : List ℚ → Except Unit (List SearchResult))
    (kw : Except Unit (List SearchResult)) : Except Unit (List SearchResult) :=
  emb.bind (fun e => (semf e).bind (fun s => kw.bind
    (fun k => Except.ok (combine_search_results s k (1 / 2)))))

/-- `SearchService.search(query, platform, top_k)`: hybrid search
combining Elasticsearch and FAISS. -/
def search (encode : String → List ℚ) (esScore : String → EsDoc → Option ℚ)
    (st : ServiceState) (query platform : String) (topk : Nat) :
    Except Unit (List SearchResult) :=
  searchRun (Except.ok (encode query))
    (fun e => semanticSearch st e platform topk)
    (Except.ok (keywordSearch esScore st query platform topk))

/-- The Elasticsearch document written by `index_document`. -/
def mkEsDoc (doc : DocumentChunk) : EsDoc :=
  ⟨doc.content, doc.platform.toLower, doc.doc_type, doc.sectionName, doc.title, doc.url⟩

/-- `SearchService.index_document(doc)`: embed the content, append the
vector to FAISS, use `str(self.index.ntotal - 1)` (the vector's insertion
position) as the document id, and write the document to Elasticsearch
under the platform's index. -/
def index_document (encode : String → List ℚ) (st : ServiceState)
    (doc : DocumentChunk) : ServiceState :=
  let embedding := encode doc.content
  let vecs := st.vecs ++ [embedding]
  let doc_id := toString (vecs.length - 1)
  ⟨vecs, esPut st.es (doc.platform.toLower ++ "_docs") doc_id (mkEsDoc doc)⟩

/-- Sequential `index_document` calls. -/
def indexAll (encode : String → List ℚ) (st : ServiceState)
    (docs : List DocumentChunk) : ServiceState :=
  docs.foldl (index_document encode) st

/-- Operations of `SearchService.search`, in program order. -/
inductive SearchEvent where
  | encodeDone
  | semanticStart
  | semanticDone
  | keywordStart
  | keywordDone
  | combineDone
deriving DecidableEq, Repr

/-- Execution order of `SearchService.search` (lines 29-41): the query
embedding is computed, then `_semantic_search` is awaited to completion,
then `_keyword_search` is awaited to completion, then the results are
combined.  The two sub-searches are sequential `await` expressions on the
same coroutine, not concurrently scheduled tasks. -/
def searchEventTrace : List SearchEvent :=
  [.encodeDone, .semanticStart, .semanticDone, .keywordStart, .keywordDone, .combineDone]

/-- The content keys of the `combined_scores` dict, in insertion order. -/
def contents (l : List (SearchResult × ℚ)) : List String :=
  l.map (fun e => e.1.content)

/-- Value of a decimal digit character produced by `Nat.digitChar`. -/
def digitVal (ch : Char) : Nat :=
  if ch = '0' then 0 else if ch = '1' then 1 else if ch = '2' then 2 else
  if ch = '3' then 3 else if ch = '4' then 4 else if ch = '5' then 5 else
  if ch = '6' then 6 else if ch = '7' then 7 else if ch = '8' then 8 else 9

/-- Decimal value of a digit string, continuing from accumulator `a`. -/
def listValFrom (a : Nat) (ds : List Char) : Nat :=
  ds.foldl (fun x ch => x * 10 + digitVal ch) a

/-- Decimal value of a string of digits. -/
def strVal (s : String) : Nat := listValFrom 0 s.data

/-! ### Concrete fixtures used by witnesses and counterexamples -/

/-- A trivial embedding collaborator: every text maps to the vector `[0]`. -/
def encZero : String → List ℚ := fun _ => [0]

/-- A relevance oracle under which no document matches any query. -/
def esScoreNone : String → EsDoc → Option ℚ := fun _ _ => none

/-- Semantic-path fixture result with content `"a"` and score `1`. -/
def resA : SearchResult := ⟨"a", "Segment", 1, "general", none⟩

/-- Keyword-path fixture result sharing content `"a"`, score `2`. -/
def resA2 : SearchResult := ⟨"a", "Segment", 2, "general", none⟩

/-- Keyword-path fixture result with distinct content `"b"`, score `1`. -/
def resB : SearchResult := ⟨"b", "Segment", 1, "general", none⟩

/-- Fixture document chunk for platform `Segment`. -/
def chunkA : DocumentChunk := ⟨"Go to Settings", "Segment", "guide", none, none, none⟩

/-- Fixture document chunk for platform `mParticle`. -/
def chunkB : DocumentChunk := ⟨"Track events", "mParticle", "general", none, none, none⟩

/-! ### Accumulation lemmas for the `combined_scores` dict -/

theorem scoreOf_cons (e : SearchResult × ℚ) (l : List (SearchResult × ℚ)) (c : String) :
    scoreOf (e :: l) c = if e.1.content = c then e.2 else scoreOf l c := by
  by_cases h : e.1.content = c <;> simp [scoreOf, h]

theorem setEntry_cons_pos {e r : SearchResult} {s sc : ℚ} {rest : List (SearchResult × ℚ)}
    (h : e.content = r.content) : setEntry ((e, s) :: rest) r sc = (r, sc) :: rest := by
  simp [setEntry, h]

theorem setEntry_cons_neg {e r : SearchResult} {s sc : ℚ} {rest : List (SearchResult × ℚ)}
    (h : ¬ e.content = r.content) :
    setEntry ((e, s) :: rest) r sc = (e, s) :: setEntry rest r sc := by
  simp [setEntry, h]

theorem addKeyword_cons_pos {e r : SearchResult} {s w : ℚ} {rest : List (SearchResult × ℚ)}
    (h : e.content = r.content) :
    addKeyword ((e, s) :: rest) r w = (e, s + r.score * w) :: rest := by
  simp [addKeyword, h]

theorem addKeyword_cons_neg {e r : SearchResult} {s w : ℚ} {rest : List (SearchResult × ℚ)}
    (h : ¬ e.content = r.content) :
    addKeyword ((e, s) :: rest) r w = (e, s) :: addKeyword rest r w := by
  simp [addKeyword, h]

theorem scoreOf_setEntry (r : SearchResult) (sc : ℚ) (c : String) :
    ∀ acc : List (SearchResult × ℚ),
      scoreOf (setEntry acc r sc) c = if r.content = c then sc else scoreOf acc c := by
  intro acc
  induction acc with
  | nil => by_cases h : r.content = c <;> simp [scoreOf, setEntry, h]
  | cons e rest ih =>
    obtain ⟨e, s⟩ := e
    by_cases he : e.content = r.content
    · by_cases hc : r.content = c
      · rw [setEntry_cons_pos he, scoreOf_cons, if_pos hc, if_pos hc]
      · have hec : ¬ e.content = c := fun h => hc (he ▸ h)
        rw [setEntry_cons_pos he, scoreOf_cons, scoreOf_cons, if_neg hc, if_neg hc,
          if_neg hec]
    · by_cases hec : e.content = c
      · have hc : ¬ r.content = c := fun h => he (hec ▸ h ▸ rfl)
        rw [setEntry_cons_neg he, scoreOf_cons, if_pos hec, if_neg hc, scoreOf_cons,
          if_pos hec]
      · rw [setEntry_cons_neg he, scoreOf_cons, if_neg hec, ih, scoreOf_cons, if_neg hec]

theorem scoreOf_addKeyword (r : SearchResult) (w : ℚ) (c : String) :
    ∀ acc : List (SearchResult × ℚ),
      scoreOf (addKeyword acc r w) c =
        scoreOf acc c + (if r.content = c then r.score * w else 0) := by
  intro acc
  induction acc with
  | nil => by_cases h : r.content = c <;> simp [scoreOf, addKeyword, h]
  | cons e rest ih =>
    obtain ⟨e, s⟩ := e
    by_cases he : e.content = r.content
    · by_cases hc : r.content = c
      · have hec : e.content = c := he ▸ hc
        rw [addKeyword_cons_pos he, scoreOf_cons, if_pos hec, scoreOf_cons, if_pos hec,
          if_pos hc]
      · have hec : ¬ e.content = c := fun h => hc (he ▸ h)
        rw [addKeyword_cons_pos he, scoreOf_cons, if_neg hec, scoreOf_cons, if_neg hec,
          if_neg hc, add_zero]
    · by_cases hec : e.content = c
      · have hc : ¬ r.content = c := fun h => he (hec ▸ h ▸ rfl)
        rw [addKeyword_cons_neg he, scoreOf_cons, if_pos hec, scoreOf_cons, if_pos hec,
          if_neg hc, add_zero]
      · rw [addKeyword_cons_neg he, scoreOf_cons, if_neg hec, ih, scoreOf_cons, if_neg hec]

theorem kwSum_nil (c : String) : kwSum [] c = 0 := rfl

theorem kwSum_cons (r : SearchResult) (kws : List SearchResult) (c : String) :
    kwSum (r :: kws) c = (if r.content = c then r.score else 0) + kwSum kws c := by
  by_cases h : r.content = c <;> simp [kwSum, List.filter_cons, h]

theorem scoreOf_kwFold (w : ℚ) (c : String) :
    ∀ (kws : List SearchResult) (acc : List (SearchResult × ℚ)),
      scoreOf (kws.foldl (fun a r => addKeyword a r w) acc) c =
        scoreOf acc c + kwSum kws c * w := by
  intro kws
  induction kws with
  | nil => intro acc; simp [kwSum_nil]
  | cons r rest ih =>
    intro acc
    simp only [List.foldl_cons, ih, scoreOf_addKeyword, kwSum_cons]
    by_cases h : r.content = c
    · simp only [if_pos h]; ring
    · simp only [if_neg h]; ring

theorem scoreOf_semFold_nomatch (w : ℚ) (c : String) :
    ∀ (sem : List SearchResult) (acc : List (SearchResult × ℚ)),
      sem.countP (fun x => decide (x.content = c)) = 0 →
      scoreOf (sem.foldl (fun a r => setEntry a r (r.score * w)) acc) c = scoreOf acc c := by
  intro sem
  induction sem with
  | nil => intro acc _; rfl
  | cons x rest ih =>
    intro acc hcount
    have hx : ¬ x.content = c := by
      have := List.countP_eq_zero.mp hcount x (List.mem_cons_self x rest)
      simpa using this
    have hrest : rest.countP (fun x => decide (x.content = c)) = 0 := by
      rw [List.countP_cons_of_neg _ _ (by simpa using hx)] at hcount
      exact hcount
    simp only [List.foldl_cons, ih _ hrest, scoreOf_setEntry, if_neg hx]

theorem scoreOf_semFold_unique (w : ℚ) (c : String) (s : SearchResult) :
    ∀ (sem : List SearchResult) (acc : List (SearchResult × ℚ)),
      sem.countP (fun x => decide (x.content = c)) = 1 →
      s ∈ sem → s.content = c →
      scoreOf (sem.foldl (fun a r => setEntry a r (r.score * w)) acc) c = s.score * w := by
  intro sem
  induction sem with
  | nil => intro acc h hm; cases hm
  | cons x rest ih =>
    intro acc hcount hmem hsc
    by_cases hx : x.content = c
    · have hrest : rest.countP (fun y => decide (y.content = c)) = 0 := by
        rw [List.countP_cons_of_pos _ _ (by simp [hx])] at hcount
        omega
      have hsx : s = x := by
        rcases List.mem_cons.mp hmem with h | h
        · exact h
        · exact absurd hsc (by simpa using List.countP_eq_zero.mp hrest s h)
      subst hsx
      rw [List.foldl_cons, scoreOf_semFold_nomatch w c rest _ hrest,
        scoreOf_setEntry, if_pos hsc]
    · have hrest : rest.countP (fun y => decide (y.content = c)) = 1 := by
        rw [List.countP_cons_of_neg _ _ (by simp [hx])] at hcount
        exact hcount
      have hsmem : s ∈ rest := by
        rcases List.mem_cons.mp hmem with h | h
        · exact absurd (h ▸ hsc) hx
        · exact h
      rw [List.foldl_cons]
      exact ih _ hrest hsmem hsc

/-- The accumulated score of content `c` after both passes of
`_combine_search_results`, when `c` occurs exactly once among the
semantic results (at `s`): `s.score * w` plus the keyword-weighted sum. -/
theorem scoreOf_rawEntries_unique (sem kw : List SearchResult) (w : ℚ) (c : String)
    (s : SearchResult) (hcount : sem.countP (fun x => decide (x.content = c)) = 1)
    (hmem : s ∈ sem) (hsc : s.content = c) :
    scoreOf (rawEntries sem kw w) c = s.score * w + kwSum kw c * (1 - w) := by
  unfold rawEntries semEntries
  rw [scoreOf_kwFold, scoreOf_semFold_unique w c s sem [] hcount hmem hsc]

/-! ### Membership and key-set lemmas for the `combined_scores` dict -/

theorem mem_setEntry {e : SearchResult × ℚ} {r : SearchResult} {sc : ℚ} :
    ∀ {acc : List (SearchResult × ℚ)}, e ∈ setEntry acc r sc → e ∈ acc ∨ e = (r, sc) := by
  intro acc
  induction acc with
  | nil => intro h; simp [setEntry] at h; exact Or.inr h
  | cons p rest ih =>
    obtain ⟨x, s⟩ := p
    intro h
    by_cases hx : x.content = r.content
    · rw [setEntry_cons_pos hx] at h
      rcases List.mem_cons.mp h with h | h
      · exact Or.inr h
      · exact Or.inl (List.mem_cons_of_mem _ h)
    · rw [setEntry_cons_neg hx] at h
      rcases List.mem_cons.mp h with h | h
      · exact Or.inl (h ▸ List.mem_cons_self _ _)
      · rcases ih h with h | h
        · exact Or.inl (List.mem_cons_of_mem _ h)
        · exact Or.inr h

theorem mem_semFold {w : ℚ} {e : SearchResult × ℚ} :
    ∀ {sem : List SearchResult} {acc : List (SearchResult × ℚ)},
      e ∈ sem.foldl (fun a r => setEntry a r (r.score * w)) acc →
      e ∈ acc ∨ ∃ r, r ∈ sem ∧ e = (r, r.score * w) := by
  intro sem
  induction sem with
  | nil => intro acc h; exact Or.inl h
  | cons x rest ih =>
    intro acc h
    rw [List.foldl_cons] at h
    rcases ih h with h | ⟨r, hr, he⟩
    · rcases mem_setEntry h with h | h
      · exact Or.inl h
      · exact Or.inr ⟨x, List.mem_cons_self _ _, h⟩
    · exact Or.inr ⟨r, List.mem_cons_of_mem _ hr, he⟩

theorem mem_semEntries {w : ℚ} {e : SearchResult × ℚ} {sem : List SearchResult}
    (h : e ∈ semEntries sem w) : ∃ r, r ∈ sem ∧ e = (r, r.score * w) := by
  rcases mem_semFold h with h | h
  · cases h
  · exact h

theorem fst_mem_addKeyword {e : SearchResult × ℚ} {r : SearchResult} {w : ℚ} :
    ∀ {acc : List (SearchResult × ℚ)},
      e ∈ addKeyword acc r w → e.1 ∈ acc.map (fun x => x.1) ∨ e.1 = r := by
  intro acc
  induction acc with
  | nil => intro h; simp [addKeyword] at h; exact Or.inr (by rw [h])
  | cons p rest ih =>
    obtain ⟨x, s⟩ := p
    intro h
    by_cases hx : x.content = r.content
    · rw [addKeyword_cons_pos hx] at h
      rcases List.mem_cons.mp h with h | h
      · exact Or.inl (by simp [h])
      · exact Or.inl (by simp; exact Or.inr ⟨e.2, h⟩)
    · rw [addKeyword_cons_neg hx] at h
      rcases List.mem_cons.mp h with h | h
      · exact Or.inl (by simp [h])
      · rcases ih h with h | h
        · exact Or.inl (by simp at h ⊢; exact Or.inr h)
        · exact Or.inr h

theorem fst_mem_kwFold {w : ℚ} {e : SearchResult × ℚ} :
    ∀ {kws : List SearchResult} {acc : List (SearchResult × ℚ)},
      e ∈ kws.foldl (fun a r => addKeyword a r w) acc →
      e.1 ∈ acc.map (fun x => x.1) ∨ e.1 ∈ kws := by
  intro kws
  induction kws with
  | nil => intro acc h; exact Or.inl (List.mem_map_of_mem _ h)
  | cons r rest ih =>
    intro acc h
    rw [List.foldl_cons] at h
    rcases ih h with h | h
    · rcases List.mem_map.mp h with ⟨p, hp, hpe⟩
      rcases fst_mem_addKeyword (hpe ▸ hp : (e.1, p.2) ∈ addKeyword acc r w) with h | h
      · exact Or.inl h
      · exact Or.inr (by rw [← h]; exact List.mem_cons_self _ _)
    · exact Or.inr (List.mem_cons_of_mem _ h)

/-- Every result object in the `combined_scores` dict is one of the input
result objects. -/
theorem fst_mem_rawEntries {sem kw : List SearchResult} {w : ℚ} {e : SearchResult × ℚ}
    (h : e ∈ rawEntries sem kw w) : e.1 ∈ sem ∨ e.1 ∈ kw := by
  rcases fst_mem_kwFold h with h | h
  · rcases List.mem_map.mp h with ⟨p, hp, hpe⟩
    rcases mem_semEntries hp with ⟨r, hr, he⟩
    exact Or.inl (by rw [← hpe, he]; exact hr)
  · exact Or.inr h

theorem contents_cons (p : SearchResult × ℚ) (l : List (SearchResult × ℚ)) :
    contents (p :: l) = p.1.content :: contents l := rfl

theorem contents_setEntry (r : SearchResult) (sc : ℚ) :
    ∀ acc : List (SearchResult × ℚ),
      contents (setEntry acc r sc) =
        if r.content ∈ contents acc then contents acc else contents acc ++ [r.content] := by
  intro acc
  induction acc with
  | nil => simp [contents, setEntry]
  | cons p rest ih =>
    obtain ⟨x, s⟩ := p
    by_cases hx : x.content = r.content
    · have hmem : r.content ∈ contents ((x, s) :: rest) := by
        rw [contents_cons]; exact hx ▸ List.mem_cons_self _ _
      rw [setEntry_cons_pos hx, if_pos hmem, contents_cons, contents_cons, hx]
    · have hxc : ¬ r.content = x.content := fun h => hx h.symm
      rw [setEntry_cons_neg hx, contents_cons, contents_cons, ih]
      by_cases hm : r.content ∈ contents rest
      · have hmem : r.content ∈ x.content :: contents rest :=
          List.mem_cons_of_mem _ hm
        rw [if_pos hm, if_pos hmem]
      · have hmem : ¬ r.content ∈ x.content :: contents rest := by
          intro h
          rcases List.mem_cons.mp h with h | h
          · exact hxc h
          · exact hm h
        rw [if_neg hm, if_neg hmem, List.cons_append]

theorem contents_addKeyword (r : SearchResult) (w : ℚ) :
    ∀ acc : List (SearchResult × ℚ),
      contents (addKeyword acc r w) =
        if r.content ∈ contents acc then contents acc else contents acc ++ [r.content] := by
  intro acc
  induction acc with
  | nil => simp [contents, addKeyword]
  | cons p rest ih =>
    obtain ⟨x, s⟩ := p
    by_cases hx : x.content = r.content
    · have hmem : r.content ∈ contents ((x, s) :: rest) := by
        rw [contents_cons]; exact hx ▸ List.mem_cons_self _ _
      rw [addKeyword_cons_pos hx, if_pos hmem, contents_cons, contents_cons]
    · have hxc : ¬ r.content = x.content := fun h => hx h.symm
      rw [addKeyword_cons_neg hx, contents_cons, contents_cons, ih]
      by_cases hm : r.content ∈ contents rest
      · have hmem : r.content ∈ x.content :: contents rest :=
          List.mem_cons_of_mem _ hm
        rw [if_pos hm, if_pos hmem]
      · have hmem : ¬ r.content ∈ x.content :: contents rest := by
          intro h
          rcases List.mem_cons.mp h with h | h
          · exact hxc h
          · exact hm h
        rw [if_neg hm, if_neg hmem, List.cons_append]

theorem nodup_contents_setEntry {r : SearchResult} {sc : ℚ}
    {acc : List (SearchResult × ℚ)} (h : (contents acc).Nodup) :
    (contents (setEntry acc r sc)).Nodup := by
  rw [contents_setEntry]
  by_cases hm : r.content ∈ contents acc
  · rwa [if_pos hm]
  · rw [if_neg hm]
    simp [List.nodup_append, h, hm]

theorem nodup_contents_addKeyword {r : SearchResult} {w : ℚ}
    {acc : List (SearchResult × ℚ)} (h : (contents acc).Nodup) :
    (contents (addKeyword acc r w)).Nodup := by
  rw [contents_addKeyword]
  by_cases hm : r.content ∈ contents acc
  · rwa [if_pos hm]
  · rw [if_neg hm]
    simp [List.nodup_append, h, hm]

theorem nodup_contents_semFold {w : ℚ} :
    ∀ (sem : List SearchResult) (acc : List (SearchResult × ℚ)),
      (contents acc).Nodup →
      (contents (sem.foldl (fun a r => setEntry a r (r.score * w)) acc)).Nodup := by
  intro sem
  induction sem with
  | nil => intro acc h; exact h
  | cons x rest ih =>
    intro acc h
    rw [List.foldl_cons]
    exact ih _ (nodup_contents_setEntry h)

theorem nodup_contents_rawEntries (sem kw : List SearchResult) (w : ℚ) :
    (contents (rawEntries sem kw w)).Nodup := by
  have base : (contents (semEntries sem w)).Nodup :=
    nodup_contents_semFold sem [] (by simp [contents])
  unfold rawEntries
  generalize semEntries sem w = acc at base
  induction kw generalizing acc with
  | nil => exact base
  | cons r rest ih =>
    rw [List.foldl_cons]
    exact ih _ (nodup_contents_addKeyword base)

theorem mem_contents_setEntry (r : SearchResult) (sc : ℚ)
    (acc : List (SearchResult × ℚ)) {c : String} (h : c ∈ contents acc) :
    c ∈ contents (setEntry acc r sc) := by
  rw [contents_setEntry]
  by_cases hm : r.content ∈ contents acc
  · rwa [if_pos hm]
  · rw [if_neg hm]; exact List.mem_append_left _ h

theorem self_mem_contents_setEntry (r : SearchResult) (sc : ℚ)
    (acc : List (SearchResult × ℚ)) : r.content ∈ contents (setEntry acc r sc) := by
  rw [contents_setEntry]
  by_cases hm : r.content ∈ contents acc
  · rwa [if_pos hm]
  · rw [if_neg hm]; exact List.mem_append_right _ (List.mem_singleton_self _)

theorem mem_contents_addKeyword (r : SearchResult) (w : ℚ)
    (acc : List (SearchResult × ℚ)) {c : String} (h : c ∈ contents acc) :
    c ∈ contents (addKeyword acc r w) := by
  rw [contents_addKeyword]
  by_cases hm : r.content ∈ contents acc
  · rwa [if_pos hm]
  · rw [if_neg hm]; exact List.mem_append_left _ h

theorem mem_contents_semFold {w : ℚ} {c : String} :
    ∀ (sem : List SearchResult) (acc : List (SearchResult × ℚ)),
      c ∈ contents acc →
      c ∈ contents (sem.foldl (fun a r => setEntry a r (r.score * w)) acc) := by
  intro sem
  induction sem with
  | nil => intro acc h; exact h
  | cons x rest ih =>
    intro acc h
    rw [List.foldl_cons]
    exact ih _ (mem_contents_setEntry _ _ _ h)

theorem mem_contents_semFoldAcc {w : ℚ} {s : SearchResult} :
    ∀ (sem : List SearchResult) (acc : List (SearchResult × ℚ)), s ∈ sem →
      s.content ∈ contents (sem.foldl (fun a r => setEntry a r (r.score * w)) acc) := by
  intro sem
  induction sem with
  | nil => intro acc h; cases h
  | cons x rest ih =>
    intro acc h
    rw [List.foldl_cons]
    rcases List.mem_cons.mp h with h | h
    · subst h
      exact mem_contents_semFold rest _ (self_mem_contents_setEntry _ _ _)
    · exact ih _ h

theorem mem_contents_semEntries {w : ℚ} {s : SearchResult} {sem : List SearchResult}
    (h : s ∈ sem) : s.content ∈ contents (semEntries sem w) :=
  mem_contents_semFoldAcc sem [] h

theorem mem_contents_rawEntries_of_sem {sem kw : List SearchResult} {w : ℚ}
    {s : SearchResult} (h : s ∈ sem) : s.content ∈ contents (rawEntries sem kw w) := by
  unfold rawEntries
  have base : s.content ∈ contents (semEntries sem w) := mem_contents_semEntries h
  generalize semEntries sem w = acc at base
  induction kw generalizing acc with
  | nil => exact base
  | cons r rest ih =>
    rw [List.foldl_cons]
    exact ih _ (mem_contents_addKeyword _ _ _ base)

/-! ### Stability of the descending sort -/

theorem filter_orderedInsert {α : Type} (q : ℚ) (x : α × ℚ) :
    ∀ l : List (α × ℚ),
      (List.orderedInsert byScoreDesc x l).filter (fun e => decide (e.2 = q)) =
        if x.2 = q then x :: l.filter (fun e => decide (e.2 = q))
        else l.filter (fun e => decide (e.2 = q)) := by
  intro l
  induction l with
  | nil => by_cases h : x.2 = q <;> simp [h]
  | cons b t ih =>
    simp only [List.orderedInsert]
    by_cases hr : byScoreDesc x b
    · rw [if_pos hr]
      by_cases h : x.2 = q
      · rw [if_pos h]
        rw [List.filter_cons_of_pos (by simp [h])]
      · rw [if_neg h]
        rw [List.filter_cons_of_neg (by simp [h])]
    · rw [if_neg hr]
      have hlt : x.2 < b.2 := by
        have : ¬ b.2 ≤ x.2 := hr
        exact lt_of_not_le this
      by_cases h : x.2 = q
      · have hbq : ¬ b.2 = q := by
          intro hb
          rw [h, hb] at hlt
          exact lt_irrefl q hlt
        rw [if_pos h, List.filter_cons_of_neg (by simp [hbq]), ih, if_pos h,
          List.filter_cons_of_neg (by simp [hbq])]
      · rw [if_neg h]
        by_cases hbq : b.2 = q
        · rw [List.filter_cons_of_pos (by simp [hbq]), ih, if_neg h,
            List.filter_cons_of_pos (by simp [hbq])]
        · rw [List.filter_cons_of_neg (by simp [hbq]), ih, if_neg h,
            List.filter_cons_of_neg (by simp [hbq])]

/-- Stability of the model of Python's `sorted(..., reverse=True)`:
restricted to any one accumulated-score value, the sorted output lists the
entries in their original (insertion) order. -/
theorem filter_insertionSort {α : Type} (q : ℚ) :
    ∀ l : List (α × ℚ),
      (List.insertionSort byScoreDesc l).filter (fun e => decide (e.2 = q)) =
        l.filter (fun e => decide (e.2 = q)) := by
  intro l
  induction l with
  | nil => rfl
  | cons x t ih =>
    simp only [List.insertionSort]
    rw [filter_orderedInsert, ih]
    by_cases h : x.2 = q
    · rw [if_pos h, List.filter_cons_of_pos (by simp [h])]
    · rw [if_neg h, List.filter_cons_of_neg (by simp [h])]

/-! ### Uniqueness of dict keys, counting -/

theorem countP_eq_one_of_nodup {l : List String} {c : String} (hn : l.Nodup)
    (hm : c ∈ l) : l.countP (fun x => decide (x = c)) = 1 := by
  induction l with
  | nil => cases hm
  | cons x t ih =>
    rcases List.mem_cons.mp hm with h | h
    · subst h
      rw [List.countP_cons_of_pos _ _ (by simp)]
      have hx : c ∉ t := (List.nodup_cons.mp hn).1
      have : t.countP (fun x => decide (x = c)) = 0 := by
        apply List.countP_eq_zero.mpr
        intro a ha hpa
        exact hx ((of_decide_eq_true hpa) ▸ ha)
      omega
    · have hne : ¬ x = c := fun he => (List.nodup_cons.mp hn).1 (he ▸ h)
      rw [List.countP_cons_of_neg _ _ (by simp [hne])]
      exact ih (List.nodup_cons.mp hn).2 h

/-- The fused output has exactly one entry for any content present in the
dict: dict keys are unique, and sorting and projecting preserve counts. -/
theorem countP_combine_eq_one {sem kw : List SearchResult} {w : ℚ} {c : String}
    (hmem : c ∈ contents (rawEntries sem kw w)) :
    (combine_search_results sem kw w).countP (fun x => decide (x.content = c)) = 1 := by
  unfold combine_search_results
  rw [List.countP_map]
  have hperm : List.Perm (List.insertionSort byScoreDesc (rawEntries sem kw w))
      (rawEntries sem kw w) :=
    List.perm_insertionSort byScoreDesc (rawEntries sem kw w)
  unfold sortedEntries
  rw [hperm.countP_eq]
  have : (rawEntries sem kw w).countP
      ((fun x => decide (x.content = c)) ∘ fun e => e.1) =
      (contents (rawEntries sem kw w)).countP (fun x => decide (x = c)) := by
    unfold contents
    rw [List.countP_map]
    rfl
  rw [this]
  exact countP_eq_one_of_nodup (nodup_contents_rawEntries sem kw w) hmem

/-! ### Weight-0 and weight-1 degeneracies of the keyword pass -/

theorem mem_addKeyword_zero {e : SearchResult × ℚ} {r : SearchResult} :
    ∀ {acc : List (SearchResult × ℚ)},
      e ∈ addKeyword acc r 0 → e ∈ acc ∨ e = (r, 0) := by
  intro acc
  induction acc with
  | nil =>
    intro h
    simp only [addKeyword, List.mem_singleton] at h
    exact Or.inr (by rw [h, mul_zero])
  | cons p rest ih =>
    obtain ⟨x, s⟩ := p
    intro h
    by_cases hx : x.content = r.content
    · rw [addKeyword_cons_pos hx] at h
      rcases List.mem_cons.mp h with h | h
      · refine Or.inl ?_
        rw [h, mul_zero, add_zero]
        exact List.mem_cons_self _ _
      · exact Or.inl (List.mem_cons_of_mem _ h)
    · rw [addKeyword_cons_neg hx] at h
      rcases List.mem_cons.mp h with h | h
      · exact Or.inl (h ▸ List.mem_cons_self _ _)
      · rcases ih h with h | h
        · exact Or.inl (List.mem_cons_of_mem _ h)
        · exact Or.inr h

theorem mem_kwFold_zero {e : SearchResult × ℚ} :
    ∀ (kws : List SearchResult) (acc : List (SearchResult × ℚ)),
      e ∈ kws.foldl (fun a r => addKeyword a r 0) acc →
      e ∈ acc ∨ (e.1 ∈ kws ∧ e.2 = 0) := by
  intro kws
  induction kws with
  | nil => intro acc h; exact Or.inl h
  | cons r rest ih =>
    intro acc h
    rw [List.foldl_cons] at h
    rcases ih _ h with h | ⟨h1, h2⟩
    · rcases mem_addKeyword_zero h with h | h
      · exact Or.inl h
      · exact Or.inr ⟨by rw [h]; exact List.mem_cons_self _ _, by rw [h]⟩
    · exact Or.inr ⟨List.mem_cons_of_mem _ h1, h2⟩

theorem scoreOf_eq_zero_of_all_zero {l : List (SearchResult × ℚ)} {c : String}
    (h : ∀ e ∈ l, e.2 = 0) : scoreOf l c = 0 := by
  unfold scoreOf
  cases hf : l.find? (fun e => decide (e.1.content = c)) with
  | none => rfl
  | some e => exact h e (List.mem_of_find?_eq_some hf)

theorem snd_eq_zero_of_mem_semEntries_zero {e : SearchResult × ℚ}
    {sem : List SearchResult} (h : e ∈ semEntries sem 0) : e.2 = 0 := by
  rcases mem_semEntries h with ⟨r, _, he⟩
  rw [he, mul_zero]

/-! ### Structure of the dict key order: semantic entries come first -/

theorem contents_kwFold_extends (w : ℚ) :
    ∀ (kws : List SearchResult) (acc : List (SearchResult × ℚ)),
      ∃ ext, contents (kws.foldl (fun a r => addKeyword a r w) acc) =
        contents acc ++ ext := by
  intro kws
  induction kws with
  | nil => intro acc; exact ⟨[], by simp⟩
  | cons r rest ih =>
    intro acc
    rw [List.foldl_cons]
    rcases ih (addKeyword acc r w) with ⟨ext, hext⟩
    rw [hext, contents_addKeyword]
    by_cases hm : r.content ∈ contents acc
    · exact ⟨ext, by rw [if_pos hm]⟩
    · exact ⟨[r.content] ++ ext, by rw [if_neg hm, List.append_assoc]⟩

/-- The undeduplicated key order of the `combined_scores` dict begins with
the semantic-pass keys: keyword results never displace them, they only
update scores in place or append fresh keys at the end. -/
theorem contents_rawEntries_take (sem kw : List SearchResult) (w : ℚ) :
    (contents (rawEntries sem kw w)).take (contents (semEntries sem w)).length =
      contents (semEntries sem w) := by
  unfold rawEntries
  rcases contents_kwFold_extends (1 - w) kw (semEntries sem w) with ⟨ext, hext⟩
  rw [hext, List.take_left]

/-! ### Fused output draws its objects from the inputs -/

theorem mem_combine_results {sem kw : List SearchResult} {w : ℚ} {r : SearchResult}
    (h : r ∈ combine_search_results sem kw w) : r ∈ sem ∨ r ∈ kw := by
  unfold combine_search_results at h
  rcases List.mem_map.mp h with ⟨e, he, hre⟩
  have : e ∈ rawEntries sem kw w :=
    (List.perm_insertionSort byScoreDesc (rawEntries sem kw w)).mem_iff.mp he
  exact hre ▸ fst_mem_rawEntries this

/-! ### The semantic fetch loop -/

theorem semLoop_replicate (es : EsStore) (p : String) (k : Nat) :
    semLoop es p (List.replicate k (-1, 0)) = Except.ok [] := by
  induction k with
  | zero => rfl
  | succ k ih => simpa [List.replicate_succ, semLoop] using ih

theorem semLoop_error_of_missing (es : EsStore) (p : String) :
    ∀ pairs : List (Int × ℚ),
      (∃ pr ∈ pairs, pr.1 ≠ -1 ∧ esGet es (p.toLower ++ "_docs") (toString pr.1) = none) →
      semLoop es p pairs = Except.error () := by
  intro pairs
  induction pairs with
  | nil => rintro ⟨pr, hmem, _⟩; cases hmem
  | cons pr0 rest ih =>
    rintro ⟨pr, hmem, hne, hget⟩
    obtain ⟨idx, dist⟩ := pr0
    rcases List.mem_cons.mp hmem with h | h
    · subst h
      simp only [semLoop, if_pos hne, hget]
    · by_cases hidx : idx ≠ -1
      · simp only [semLoop, if_pos hidx]
        cases hg : esGet es (p.toLower ++ "_docs") (toString idx) with
        | none => rfl
        | some doc =>
          rw [ih ⟨pr, h, hne, hget⟩]
          rfl
      · simp only [semLoop, if_neg hidx]
        exact ih ⟨pr, h, hne, hget⟩

theorem semLoop_scores (es : EsStore) (p : String) :
    ∀ (pairs : List (Int × ℚ)) (rs : List SearchResult),
      semLoop es p pairs = Except.ok rs →
      ∀ r ∈ rs, ∃ pr ∈ pairs, pr.1 ≠ -1 ∧ r.score = similarity pr.2 := by
  intro pairs
  induction pairs with
  | nil =>
    intro rs h r hr
    simp only [semLoop] at h
    cases h
    cases hr
  | cons pr0 rest ih =>
    intro rs h r hr
    obtain ⟨idx, dist⟩ := pr0
    by_cases hidx : idx ≠ -1
    · simp only [semLoop, if_pos hidx] at h
      cases hg : esGet es (p.toLower ++ "_docs") (toString idx) with
      | none => rw [hg] at h; cases h
      | some doc =>
        rw [hg] at h
        cases hrest : semLoop es p rest with
        | error e => rw [hrest] at h; cases h
        | ok rs0 =>
          rw [hrest] at h
          have hrs : rs =
              ⟨doc.content, p, similarity dist, doc.doc_type, doc.sectionName⟩ :: rs0 := by
            cases h; rfl
          subst hrs
          rcases List.mem_cons.mp hr with h | h
          · exact ⟨(idx, dist), List.mem_cons_self _ _, hidx, by rw [h]⟩
          · rcases ih rs0 hrest r h with ⟨pr, hpr, hne, hsc⟩
            exact ⟨pr, List.mem_cons_of_mem _ hpr, hne, hsc⟩
    · simp only [semLoop, if_neg hidx] at h
      rcases ih rs h r hr with ⟨pr, hpr, hne, hsc⟩
      exact ⟨pr, List.mem_cons_of_mem _ hpr, hne, hsc⟩

/-! ### The Elasticsearch store under writes -/

theorem esGet_nil (idx i : String) : esGet [] idx i = none := rfl

theorem esGet_cons_pos {e : String × String × EsDoc} {rest : List (String × String × EsDoc)}
    {idx i : String} (h1 : e.1 = idx) (h2 : e.2.1 = i) :
    esGet (e :: rest) idx i = some e.2.2 := by
  unfold esGet
  rw [List.find?_cons_of_pos _ (by
    rw [Bool.and_eq_true, decide_eq_true_eq, decide_eq_true_eq]
    exact ⟨h1, h2⟩)]

theorem esGet_cons_neg {e : String × String × EsDoc} {rest : List (String × String × EsDoc)}
    {idx i : String} (h : ¬ (e.1 = idx ∧ e.2.1 = i)) :
    esGet (e :: rest) idx i = esGet rest idx i := by
  unfold esGet
  rw [List.find?_cons_of_neg _ (by
    rw [Bool.and_eq_true, decide_eq_true_eq, decide_eq_true_eq]
    exact h)]

theorem esPut_cons_pos {e : String × String × EsDoc} {rest : List (String × String × EsDoc)}
    {idx i : String} {d : EsDoc} (h : e.1 = idx ∧ e.2.1 = i) :
    esPut (e :: rest) idx i d = (idx, i, d) :: rest := by
  simp [esPut, h]

theorem esPut_cons_neg {e : String × String × EsDoc} {rest : List (String × String × EsDoc)}
    {idx i : String} {d : EsDoc} (h : ¬ (e.1 = idx ∧ e.2.1 = i)) :
    esPut (e :: rest) idx i d = e :: esPut rest idx i d := by
  simp [esPut, h]

theorem esGet_esPut_self (idx i : String) (d : EsDoc) :
    ∀ es : EsStore, esGet (esPut es idx i d) idx i = some d := by
  intro es
  induction es with
  | nil => exact esGet_cons_pos rfl rfl
  | cons e rest ih =>
    by_cases h : e.1 = idx ∧ e.2.1 = i
    · rw [esPut_cons_pos h]
      exact esGet_cons_pos rfl rfl
    · rw [esPut_cons_neg h, esGet_cons_neg h]
      exact ih

theorem esGet_esPut_ne (idx idx2 i i2 : String) (d : EsDoc) (hne : i ≠ i2) :
    ∀ es : EsStore, esGet (esPut es idx2 i2 d) idx i = esGet es idx i := by
  intro es
  have hput : ¬ ((idx2, i2, d).1 = idx ∧ (idx2, i2, d).2.1 = i) := by
    rintro ⟨_, h2⟩
    exact hne (h2 ▸ rfl)
  induction es with
  | nil =>
    show esGet [(idx2, i2, d)] idx i = esGet [] idx i
    rw [esGet_cons_neg hput]
  | cons e rest ih =>
    by_cases h : e.1 = idx2 ∧ e.2.1 = i2
    · rw [esPut_cons_pos h, esGet_cons_neg hput]
      have he : ¬ (e.1 = idx ∧ e.2.1 = i) := by
        rintro ⟨_, h2⟩
        exact hne (h2 ▸ h.2 ▸ rfl)
      rw [esGet_cons_neg he]
    · rw [esPut_cons_neg h]
      by_cases hp : e.1 = idx ∧ e.2.1 = i
      · rw [esGet_cons_pos hp.1 hp.2, esGet_cons_pos hp.1 hp.2]
      · rw [esGet_cons_neg hp, esGet_cons_neg hp]
        exact ih

/-! ### Injectivity of the decimal document ids (`str(position)`) -/

theorem listValFrom_cons (a : Nat) (ch : Char) (ds : List Char) :
    listValFrom a (ch :: ds) = listValFrom (a * 10 + digitVal ch) ds := rfl

theorem digitVal_digitChar {n : Nat} (h : n < 10) : digitVal (Nat.digitChar n) = n := by
  interval_cases n <;> rfl

theorem toDigitsCore_val :
    ∀ (fuel n : Nat) (ds : List Char), n < fuel →
      listValFrom 0 (Nat.toDigitsCore 10 fuel n ds) = listValFrom n ds := by
  intro fuel
  induction fuel with
  | zero => intro n ds h; omega
  | succ fuel ih =>
    intro n ds h
    simp only [Nat.toDigitsCore]
    by_cases hz : n / 10 = 0
    · rw [if_pos hz, listValFrom_cons, digitVal_digitChar (Nat.mod_lt n (by omega))]
      have : 0 * 10 + n % 10 = n := by omega
      rw [this]
    · rw [if_neg hz]
      have hlt : n / 10 < fuel := by omega
      rw [ih (n / 10) _ hlt, listValFrom_cons,
        digitVal_digitChar (Nat.mod_lt n (by omega))]
      have : n / 10 * 10 + n % 10 = n := by omega
      rw [this]

theorem strVal_natRepr (n : Nat) : strVal (Nat.repr n) = n := by
  show listValFrom 0 (Nat.toDigitsCore 10 (n + 1) n []) = n
  rw [toDigitsCore_val (n + 1) n [] (Nat.lt_succ_self n)]
  rfl

theorem toString_nat_inj {m n : Nat} (h : toString m = toString n) : m = n := by
  have hm : strVal (Nat.repr m) = strVal (Nat.repr n) := by
    have : Nat.repr m = Nat.repr n := h
    rw [this]
  rwa [strVal_natRepr, strVal_natRepr] at hm

/-! ### Sequential indexing -/

theorem index_document_vecs (encode : String → List ℚ) (st : ServiceState)
    (doc : DocumentChunk) :
    (index_document encode st doc).vecs = st.vecs ++ [encode doc.content] := rfl

theorem index_document_vecs_length (encode : String → List ℚ) (st : ServiceState)
    (doc : DocumentChunk) :
    (index_document encode st doc).vecs.length = st.vecs.length + 1 := by
  rw [index_document_vecs, List.length_append, List.length_singleton]

theorem index_document_es (encode : String → List ℚ) (st : ServiceState)
    (doc : DocumentChunk) :
    (index_document encode st doc).es =
      esPut st.es (doc.platform.toLower ++ "_docs") (toString st.vecs.length)
        (mkEsDoc doc) := by
  unfold index_document
  simp

theorem indexAll_cons (encode : String → List ℚ) (st : ServiceState)
    (d : DocumentChunk) (rest : List DocumentChunk) :
    indexAll encode st (d :: rest) = indexAll encode (index_document encode st d) rest := rfl

theorem indexAll_vecs (encode : String → List ℚ) :
    ∀ (docs : List DocumentChunk) (st : ServiceState),
      (indexAll encode st docs).vecs = st.vecs ++ docs.map (fun d => encode d.content) := by
  intro docs
  induction docs with
  | nil => intro st; simp [indexAll]
  | cons d rest ih =>
    intro st
    rw [indexAll_cons, ih, index_document_vecs, List.map_cons, List.append_assoc,
      List.singleton_append]

theorem esGet_indexAll_untouched (encode : String → List ℚ) :
    ∀ (docs : List DocumentChunk) (st : ServiceState) (idx i : String),
      (∀ j : Nat, i ≠ toString (st.vecs.length + j)) →
      esGet (indexAll encode st docs).es idx i = esGet st.es idx i := by
  intro docs
  induction docs with
  | nil => intro st idx i _; rfl
  | cons d rest ih =>
    intro st idx i h
    rw [indexAll_cons]
    have hlen := index_document_vecs_length encode st d
    have hnext : ∀ j : Nat,
        i ≠ toString ((index_document encode st d).vecs.length + j) := by
      intro j
      have harg : (index_document encode st d).vecs.length + j =
          st.vecs.length + (j + 1) := by
        rw [hlen]; omega
      rw [harg]
      exact h (j + 1)
    rw [ih _ idx i hnext, index_document_es]
    apply esGet_esPut_ne
    have := h 0
    rwa [Nat.add_zero] at this

theorem esGet_indexAll (encode : String → List ℚ) :
    ∀ (docs : List DocumentChunk) (st : ServiceState) (i : Nat) (h : i < docs.length),
      esGet (indexAll encode st docs).es
        ((docs.get ⟨i, h⟩).platform.toLower ++ "_docs") (toString (st.vecs.length + i)) =
        some (mkEsDoc (docs.get ⟨i, h⟩)) := by
  intro docs
  induction docs with
  | nil => intro st i h; exact absurd h (by simp)
  | cons d rest ih =>
    intro st i h
    cases i with
    | zero =>
      rw [indexAll_cons]
      have hlen := index_document_vecs_length encode st d
      have huntouched : ∀ j : Nat,
          toString (st.vecs.length + 0) ≠
            toString ((index_document encode st d).vecs.length + j) := by
        intro j heq
        have := toString_nat_inj heq
        omega
      rw [esGet_indexAll_untouched encode rest _ _ _ huntouched, index_document_es,
        Nat.add_zero]
      exact esGet_esPut_self _ _ _ _
    | succ n =>
      rw [indexAll_cons]
      have hn : n < rest.length := by
        simpa using h
      have harg : st.vecs.length + (n + 1) =
          (index_document encode st d).vecs.length + n := by
        rw [index_document_vecs_length]; omega
      have hget : (d :: rest).get ⟨n + 1, h⟩ = rest.get ⟨n, hn⟩ := rfl
      rw [hget, harg]
      exact ih _ n hn

theorem exceptBind_ok {α β : Type} (x : α) (f : α → Except Unit β) :
    Except.bind (Except.ok x) f = f x := rfl

theorem exceptBind_error {α β : Type} (f : α → Except Unit β) :
    Except.bind (Except.error () : Except Unit α) f = Except.error () := rfl

/-! ### Claim theorems -/

/-- C3: the distance-to-similarity conversion of the semantic path is
exactly `1/(1+d)`; for every distance `d ≥ 0` it lies in `(0, 1]`, equals
`1` iff `d = 0`, and is strictly decreasing; and every result an
`Except.ok` run of `_semantic_search` emits carries score
`similarity distance` for some valid `(position, distance)` pair returned
by the vector index. -/
theorem similarity_spec (d dd : ℚ) (hd : 0 ≤ d) :
    similarity d = 1 / (1 + d) ∧
    0 < similarity d ∧ similarity d ≤ 1 ∧ (similarity d = 1 ↔ d = 0) ∧
    (d < dd → similarity dd < similarity d) ∧
    (∀ (st : ServiceState) (emb : List ℚ) (p : String) (k : Nat)
      (rs : List SearchResult), semanticSearch st emb p k = Except.ok rs →
      ∀ r ∈ rs, ∃ pr ∈ knnSearch st.vecs emb k, pr.1 ≠ -1 ∧ r.score = similarity pr.2) := by
  have hpos : 0 < 1 + d := by linarith
  refine ⟨rfl, ?_, ?_, ?_, ?_, ?_⟩
  · exact div_pos one_pos hpos
  · rw [similarity, div_le_one hpos]
    linarith
  · rw [similarity, div_eq_one_iff_eq (ne_of_gt hpos)]
    constructor
    · intro h; linarith
    · intro h; rw [h]; ring
  · intro hlt
    rw [similarity, similarity]
    exact one_div_lt_one_div_of_lt hpos (by linarith)
  · intro st emb p k rs hok r hr
    exact semLoop_scores st.es p (knnSearch st.vecs emb k) rs hok r hr

/-- Witness for C3 at `d = 0`, `dd = 1`. -/
theorem similarity_spec_witness :
    (0 : ℚ) ≤ 0 ∧
    (similarity 0 = 1 / (1 + 0) ∧
      0 < similarity 0 ∧ similarity 0 ≤ 1 ∧ (similarity 0 = 1 ↔ (0 : ℚ) = 0) ∧
      ((0 : ℚ) < 1 → similarity 1 < similarity 0) ∧
      (∀ (st : ServiceState) (emb : List ℚ) (p : String) (k : Nat)
        (rs : List SearchResult), semanticSearch st emb p k = Except.ok rs →
        ∀ r ∈ rs, ∃ pr ∈ knnSearch st.vecs emb k, pr.1 ≠ -1 ∧
          r.score = similarity pr.2)) :=
  ⟨le_refl 0, similarity_spec 0 1 (le_refl 0)⟩

/-- C7: on the empty service state (empty vector index, empty document
store) every `search` call — in particular
`search("how do I add a source", "Segment", topK=3)` — returns an empty
list rather than raising. -/
theorem search_empty_state (encode : String → List ℚ)
    (esScore : String → EsDoc → Option ℚ) (query platform : String) (topk : Nat) :
    search encode esScore emptyState query platform topk = Except.ok [] := by
  have hknn : knnSearch emptyState.vecs (encode query) topk =
      List.replicate topk (-1, 0) := by
    simp [knnSearch, emptyState]
  have hsem : semanticSearch emptyState (encode query) platform topk = Except.ok [] := by
    unfold semanticSearch
    rw [hknn]
    exact semLoop_replicate _ _ _
  have hkw : keywordSearch esScore emptyState query platform topk = [] := by
    simp [keywordSearch, esSearchQ, emptyState, List.filter]
  unfold search searchRun
  simp only [exceptBind_ok]
  rw [hsem]
  simp only [exceptBind_ok]
  rw [hkw]
  rfl

/-- C8: the statement sequence of `search` propagates any exception from
the embedding step, the semantic sub-search, or the keyword sub-search:
the whole retrieval fails, no partial list is returned; in particular a
failing semantic sub-search fails the concrete `search`. -/
theorem search_propagates_failures (emb : Except Unit (List ℚ))
    (semf : List ℚ → Except Unit (List SearchResult))
    (kw : Except Unit (List SearchResult)) :
    (emb = Except.error () → searchRun emb semf kw = Except.error ()) ∧
    (∀ e, emb = Except.ok e → semf e = Except.error () →
      searchRun emb semf kw = Except.error ()) ∧
    (∀ e s, emb = Except.ok e → semf e = Except.ok s → kw = Except.error () →
      searchRun emb semf kw = Except.error ()) ∧
    (∀ (encode : String → List ℚ) (esScore : String → EsDoc → Option ℚ)
      (st : ServiceState) (query platform : String) (topk : Nat),
      semanticSearch st (encode query) platform topk = Except.error () →
      search encode esScore st query platform topk = Except.error ()) := by
  refine ⟨?_, ?_, ?_, ?_⟩
  · intro h
    rw [h]
    rfl
  · intro e h1 h2
    rw [h1]
    unfold searchRun
    simp only [exceptBind_ok]
    rw [h2]
    rfl
  · intro e s h1 h2 h3
    rw [h1]
    unfold searchRun
    simp only [exceptBind_ok]
    rw [h2]
    simp only [exceptBind_ok]
    rw [h3]
    rfl
  · intro encode esScore st query platform topk hsem
    unfold search searchRun
    simp only [exceptBind_ok]
    rw [hsem]
    rfl

/-- Witness for C8: an erroring embedding collaborator fails the run. -/
theorem search_propagates_failures_witness :
    (Except.error () : Except Unit (List ℚ)) = Except.error () ∧
    searchRun (Except.error ()) (fun _ => Except.ok []) (Except.ok []) =
      Except.error () :=
  ⟨rfl, (search_propagates_failures (Except.error ()) (fun _ => Except.ok [])
    (Except.ok [])).1 rfl⟩

/-- C9 (code evidence): in the execution order of `SearchService.search`,
the keyword sub-search starts only after the semantic sub-search has
completed — the two `await` expressions are sequential, so the
sub-searches do not execute concurrently. -/
theorem keyword_starts_after_semantic_done :
    searchEventTrace.findIdx (fun e => decide (e = SearchEvent.semanticDone)) <
      searchEventTrace.findIdx (fun e => decide (e = SearchEvent.keywordStart)) := by
  decide

/-- C1 counterexample: with one vector indexed and an empty document
store, FAISS returns valid position `0`, `es.get("segment_docs", "0")`
finds nothing, and the whole `search` call raises (returns
`Except.error`) instead of omitting the hit and completing. -/
theorem stale_pointer_not_tolerated :
    search encZero esScoreNone ⟨[[0]], []⟩ "q" "Segment" 1 = Except.error () := by
  rfl

/-- C1 (amended): if the vector index returns a valid position whose id
has no document in the queried platform's partition, `_semantic_search`
raises — the collaborator's NotFound exception propagates uncaught — and
the whole `search` call fails; the stale hit is not dropped and no fused
result is produced. -/
theorem stale_pointer_raises (encode : String → List ℚ)
    (esScore : String → EsDoc → Option ℚ) (st : ServiceState)
    (query platform : String) (topk : Nat)
    (h : ∃ pr ∈ knnSearch st.vecs (encode query) topk, pr.1 ≠ -1 ∧
      esGet st.es (platform.toLower ++ "_docs") (toString pr.1) = none) :
    semanticSearch st (encode query) platform topk = Except.error () ∧
    search encode esScore st query platform topk = Except.error () := by
  have hsem : semanticSearch st (encode query) platform topk = Except.error () := by
    unfold semanticSearch
    exact semLoop_error_of_missing st.es platform _ h
  refine ⟨hsem, ?_⟩
  unfold search searchRun
  simp only [exceptBind_ok]
  rw [hsem]
  rfl

/-- Witness for C1 (amended) at the one-vector, empty-store state. -/
theorem stale_pointer_raises_witness :
    (∃ pr ∈ knnSearch (⟨[[0]], []⟩ : ServiceState).vecs (encZero "q") 1,
      pr.1 ≠ -1 ∧
      esGet (⟨[[0]], []⟩ : ServiceState).es ("Segment".toLower ++ "_docs")
        (toString pr.1) = none) ∧
    (semanticSearch ⟨[[0]], []⟩ (encZero "q") "Segment" 1 = Except.error () ∧
      search encZero esScoreNone ⟨[[0]], []⟩ "q" "Segment" 1 = Except.error ()) := by
  have hmem : ((0 : Int), sqDist (encZero "q") [(0 : ℚ)]) ∈
      knnSearch (⟨[[0]], []⟩ : ServiceState).vecs (encZero "q") 1 := by
    show _ ∈ [((0 : Int), sqDist (encZero "q") [(0 : ℚ)])]
    exact List.mem_singleton_self _
  have hex : ∃ pr ∈ knnSearch (⟨[[0]], []⟩ : ServiceState).vecs (encZero "q") 1,
      pr.1 ≠ -1 ∧
      esGet (⟨[[0]], []⟩ : ServiceState).es ("Segment".toLower ++ "_docs")
        (toString pr.1) = none :=
    ⟨((0 : Int), sqDist (encZero "q") [(0 : ℚ)]), hmem, by decide, rfl⟩
  exact ⟨hex, stale_pointer_raises encZero esScoreNone ⟨[[0]], []⟩ "q" "Segment" 1 hex⟩

theorem kwSum_of_unique {kw : List SearchResult} {c : String} {r : SearchResult}
    (h1 : kw.countP (fun x => decide (x.content = c)) = 1) (hr : r ∈ kw)
    (hc : r.content = c) : kwSum kw c = r.score := by
  have hlen : (kw.filter (fun x => decide (x.content = c))).length = 1 := by
    rw [← List.countP_eq_length_filter]
    exact h1
  rcases List.length_eq_one.mp hlen with ⟨a, ha⟩
  have hrmem : r ∈ kw.filter (fun x => decide (x.content = c)) :=
    List.mem_filter.mpr ⟨hr, by simp [hc]⟩
  rw [ha] at hrmem
  have hra : r = a := List.mem_singleton.mp hrmem
  subst hra
  unfold kwSum
  rw [ha]
  simp

/-- C2: if content `c` occurs exactly once among the semantic results (at
`s`) and exactly once among the keyword results (at `r`), then for any
semantic weight `w` the fused list contains exactly one entry for `c`,
and the accumulated fusion score registered for `c` is
`s.score * w + r.score * (1 - w)` — content equality is the dedup key. -/
theorem fusion_dedup_law (sem kw : List SearchResult) (w : ℚ) (s r : SearchResult)
    (hs : s ∈ sem) (hr : r ∈ kw) (hcontent : r.content = s.content)
    (hsem1 : sem.countP (fun x => decide (x.content = s.content)) = 1)
    (hkw1 : kw.countP (fun x => decide (x.content = s.content)) = 1) :
    (combine_search_results sem kw w).countP
      (fun x => decide (x.content = s.content)) = 1 ∧
    scoreOf (rawEntries sem kw w) s.content = s.score * w + r.score * (1 - w) := by
  constructor
  · exact countP_combine_eq_one (mem_contents_rawEntries_of_sem hs)
  · rw [scoreOf_rawEntries_unique sem kw w s.content s hsem1 hs rfl,
      kwSum_of_unique hkw1 hr hcontent]

/-- Witness for C2: one semantic and one keyword result sharing content
`"a"`, fused at weight `1/2`. -/
theorem fusion_dedup_law_witness :
    (resA ∈ [resA] ∧ resA2 ∈ [resA2] ∧ resA2.content = resA.content ∧
      ([resA] : List SearchResult).countP
        (fun x => decide (x.content = resA.content)) = 1 ∧
      ([resA2] : List SearchResult).countP
        (fun x => decide (x.content = resA.content)) = 1) ∧
    ((combine_search_results [resA] [resA2] (1 / 2)).countP
      (fun x => decide (x.content = resA.content)) = 1 ∧
      scoreOf (rawEntries [resA] [resA2] (1 / 2)) resA.content =
        resA.score * (1 / 2) + resA2.score * (1 - 1 / 2)) := by
  have h1 : resA ∈ [resA] := List.mem_singleton_self _
  have h2 : resA2 ∈ [resA2] := List.mem_singleton_self _
  have h3 : resA2.content = resA.content := rfl
  have h4 : ([resA] : List SearchResult).countP
      (fun x => decide (x.content = resA.content)) = 1 := by decide
  have h5 : ([resA2] : List SearchResult).countP
      (fun x => decide (x.content = resA.content)) = 1 := by decide
  exact ⟨⟨h1, h2, h3, h4, h5⟩,
    fusion_dedup_law [resA] [resA2] (1 / 2) resA resA2 h1 h2 h3 h4 h5⟩

/-- C10: `_combine_search_results` returns the original `SearchResult`
objects unmodified — every returned result is one of the input results
(all fields, the `score` field included, exactly as the originating
sub-search produced them); the accumulated weighted score only determines
the output order. -/
theorem combine_returns_original_objects (sem kw : List SearchResult) (w : ℚ)
    (r : SearchResult) (h : r ∈ combine_search_results sem kw w) :
    r ∈ sem ∨ r ∈ kw :=
  mem_combine_results h

/-- Witness for C10 on a singleton semantic input. -/
theorem combine_returns_original_objects_witness :
    resA ∈ combine_search_results [resA] [] (1 / 2) ∧
    (resA ∈ [resA] ∨ resA ∈ ([] : List SearchResult)) := by
  have hmem : resA ∈ combine_search_results [resA] [] (1 / 2) := by
    show resA ∈ [resA]
    exact List.mem_singleton_self _
  exact ⟨hmem, combine_returns_original_objects [resA] [] (1 / 2) resA hmem⟩

/-- C4 counterexample: at `semantic_weight = 1` the fused ranking is not
the semantic-only ranking — a keyword-only result survives fusion with
accumulated score `0` instead of disappearing. -/
theorem fusion_weight_one_counterexample :
    combine_search_results [resA] [resB] 1 = [resA, resB] ∧
    combine_search_results [resA] [] 1 = [resA] ∧
    combine_search_results [resA] [resB] 1 ≠ combine_search_results [resA] [] 1 := by
  have e2 : rawEntries [resA] [resB] 1 =
      [(resA, resA.score * 1), (resB, resB.score * (1 - 1))] := by
    unfold rawEntries semEntries
    rw [List.foldl_cons, List.foldl_nil, List.foldl_cons, List.foldl_nil]
    rw [show setEntry [] resA (resA.score * 1) = [(resA, resA.score * 1)] from rfl]
    rw [addKeyword_cons_neg (by decide)]
    rfl
  have hsorted : sortedEntries [resA] [resB] 1 =
      [(resA, resA.score * 1), (resB, resB.score * (1 - 1))] := by
    unfold sortedEntries
    rw [e2]
    show List.orderedInsert byScoreDesc (resA, resA.score * 1)
      (List.orderedInsert byScoreDesc (resB, resB.score * (1 - 1)) []) = _
    rw [List.orderedInsert_nil]
    rw [List.orderedInsert_of_le]
    show resB.score * (1 - 1) ≤ resA.score * 1
    norm_num [resA, resB]
  have h1 : combine_search_results [resA] [resB] 1 = [resA, resB] := by
    unfold combine_search_results
    rw [hsorted]
    rfl
  have h2 : combine_search_results [resA] [] 1 = [resA] := rfl
  refine ⟨h1, h2, ?_⟩
  rw [h1, h2]
  simp

/-- C4 (amended): the weight law holds for the accumulated scores but not
for the rankings.  At `semantic_weight = 1` every fused entry is either an
entry of the semantic pass (unchanged object and score) or a keyword-only
entry with accumulated score `0` — keyword contributions are zero but
keyword-only entries still appear.  At `semantic_weight = 0` the semantic
pass contributes score `0` to every entry and each content's accumulated
score is exactly the sum of its keyword scores. -/
theorem fusion_weight_law_amended (sem kw : List SearchResult) :
    (∀ e ∈ rawEntries sem kw 1, e ∈ semEntries sem 1 ∨ (e.1 ∈ kw ∧ e.2 = 0)) ∧
    (∀ e ∈ semEntries sem 0, e.2 = 0) ∧
    (∀ c : String, scoreOf (rawEntries sem kw 0) c = kwSum kw c) := by
  refine ⟨?_, ?_, ?_⟩
  · intro e he
    unfold rawEntries at he
    simp only [show (1 : ℚ) - 1 = 0 from by norm_num] at he
    exact mem_kwFold_zero kw _ he
  · intro e he
    exact snd_eq_zero_of_mem_semEntries_zero he
  · intro c
    unfold rawEntries
    rw [scoreOf_kwFold,
      scoreOf_eq_zero_of_all_zero (fun e he => snd_eq_zero_of_mem_semEntries_zero he)]
    norm_num

/-- Witness for C4 (amended): the single semantic entry at weight `0`
carries accumulated score `0`. -/
theorem fusion_weight_law_amended_witness :
    (resA, resA.score * 0) ∈ semEntries [resA] 0 ∧ (resA, resA.score * 0).2 = 0 := by
  have hmem : (resA, resA.score * 0) ∈ semEntries [resA] 0 := by
    show (resA, resA.score * 0) ∈ [(resA, resA.score * 0)]
    exact List.mem_singleton_self _
  exact ⟨hmem, (fusion_weight_law_amended [resA] []).2.1 _ hmem⟩

/-- C5: fusion is deterministic (a pure function of its inputs), the
output entries are ordered by accumulated score descending, ties keep
their original dict-insertion order (restricting the sorted entry list to
any one score value yields exactly the insertion-ordered sublist), and the
insertion order itself lists all semantic-pass entries before the
keyword-only entries. -/
theorem fusion_deterministic_and_stable (sem kw : List SearchResult) (w : ℚ) :
    combine_search_results sem kw w = combine_search_results sem kw w ∧
    List.Sorted byScoreDesc (sortedEntries sem kw w) ∧
    (∀ q : ℚ, (sortedEntries sem kw w).filter (fun e => decide (e.2 = q)) =
      (rawEntries sem kw w).filter (fun e => decide (e.2 = q))) ∧
    (contents (rawEntries sem kw w)).take (contents (semEntries sem w)).length =
      contents (semEntries sem w) := by
  refine ⟨rfl, ?_, ?_, contents_rawEntries_take sem kw w⟩
  · exact List.sorted_insertionSort byScoreDesc (rawEntries sem kw w)
  · intro q
    exact filter_insertionSort q (rawEntries sem kw w)

theorem knnSearch_mem_valid {vecs : List (List ℚ)} {q : List ℚ} {k : Nat}
    {pr : Int × ℚ} (h : pr ∈ knnSearch vecs q k) :
    pr.1 = -1 ∨ ∃ j : Nat, j < vecs.length ∧ pr.1 = (j : Int) := by
  simp only [knnSearch] at h
  rcases List.mem_append.mp h with h | h
  · have h1 := List.mem_of_mem_take h
    have h2 : pr ∈ (vecs.enum.map (fun p => ((p.1 : Int), sqDist q p.2))) :=
      (List.perm_insertionSort _ _).mem_iff.mp h1
    rcases List.mem_map.mp h2 with ⟨⟨j, v⟩, hj, hpr⟩
    right
    refine ⟨j, ?_, by rw [← hpr]⟩
    have := List.fst_lt_add_of_mem_enumFrom hj
    simpa using this
  · left
    rw [List.eq_of_mem_replicate h]

/-- C6: starting from the empty service, `N` sequential `index_document`
calls append their embeddings at vector positions `0..N-1` in order, write
the `i`-th document under id `str(i)` in its platform's partition, and
every valid position the vector index can subsequently return is the
position of some indexed document. -/
theorem index_document_positionally_consistent (encode : String → List ℚ)
    (docs : List DocumentChunk) :
    (indexAll encode emptyState docs).vecs = docs.map (fun d => encode d.content) ∧
    (∀ (i : Nat) (h : i < docs.length),
      esGet (indexAll encode emptyState docs).es
        ((docs.get ⟨i, h⟩).platform.toLower ++ "_docs") (toString i) =
        some (mkEsDoc (docs.get ⟨i, h⟩))) ∧
    (∀ (q : List ℚ) (k : Nat) (pr : Int × ℚ),
      pr ∈ knnSearch (indexAll encode emptyState docs).vecs q k → pr.1 ≠ -1 →
      ∃ j : Nat, j < docs.length ∧ pr.1 = (j : Int)) := by
  have hvecs : (indexAll encode emptyState docs).vecs =
      docs.map (fun d => encode d.content) := by
    rw [indexAll_vecs]
    rfl
  refine ⟨hvecs, ?_, ?_⟩
  · intro i h
    have := esGet_indexAll encode docs emptyState i h
    rwa [show emptyState.vecs.length + i = i from by simp [emptyState]] at this
  · intro q k pr hmem hne
    rcases knnSearch_mem_valid hmem with h | ⟨j, hj, hpr⟩
    · exact absurd h hne
    · rw [hvecs, List.length_map] at hj
      exact ⟨j, hj, hpr⟩

/-- Witness for C6 on two concrete chunks from different platforms. -/
theorem index_document_positionally_consistent_witness :
    ((0 : Nat) < ([chunkA, chunkB] : List DocumentChunk).length) ∧
    esGet (indexAll encZero emptyState [chunkA, chunkB]).es
      (chunkA.platform.toLower ++ "_docs") (toString 0) = some (mkEsDoc chunkA) :=
  ⟨by decide,
    (index_document_positionally_consistent encZero [chunkA, chunkB]).2.1 0 (by decide)⟩

end CDPSmartBot
